import Mathlib

/-!
Verification of the NetBeans profiler native stack bridge
(`profiler/lib.profiler/native/src-jdk15/Stacks.c`).

The C file is shallowly embedded: the static state manipulated by
`copy_into_data_array` (`byteData`, `byteDataLen`, `dataOfs`, `strOffsets`,
`ofsIdx`) becomes an explicit record, JVMTI lookups become oracle inputs,
and JNI array writes become pure list updates.  Bytes are modelled as
`Char` (the strings involved are ASCII).
-/

set_option maxHeartbeats 1000000

/-- `PACKEDARR_ITEMS` from Stacks.c: four packed fields per method record. -/
def PACKEDARR_ITEMS : Nat := 4

/-- The static state used by `copy_into_data_array` in Stacks.c:
`byteData` is the malloc'ed buffer (length `byteDataLen`), `dataOfs` the
number of bytes written so far, `strOffsets` the offsets recorded so far
(`ofsIdx` is implicit as `strOffsets.length`). -/
structure DataArrSt where
  byteData : List Char
  byteDataLen : Nat
  dataOfs : Nat
  strOffsets : List Nat
deriving DecidableEq, Repr

/-- Embedding of `copy_into_data_array(char *s)` from Stacks.c.
If the new data would overflow, the buffer grows to
`max(byteDataLen * 2, dataOfs + len)`; `memcpy` preserves the first
`dataOfs` bytes and the rest of the fresh `malloc` block is junk
(modelled as NUL).  Then `strncpy` writes the `len` bytes of `s` at
`dataOfs`, the offset is recorded, and `dataOfs` advances. -/
def copy_into_data_array (st : DataArrSt) (s : List Char) : DataArrSt :=
  let len := s.length
  let st1 :=
    if st.dataOfs + len > st.byteDataLen then
      let newLen0 := st.byteDataLen * 2
      let newLen := if newLen0 < st.dataOfs + len then st.dataOfs + len else newLen0
      { st with
        byteData := st.byteData.take st.dataOfs ++
          List.replicate (newLen - st.dataOfs) (Char.ofNat 0),
        byteDataLen := newLen }
    else st
  { st1 with
    byteData := st1.byteData.take st1.dataOfs ++ s ++ st1.byteData.drop (st1.dataOfs + len),
    strOffsets := st1.strOffsets ++ [st1.dataOfs],
    dataOfs := st1.dataOfs + len }

/-- The store as initialised by `getMethodNamesForJMethodIds`: a fresh
buffer of `cap` junk bytes, `dataOfs = ofsIdx = 0`. -/
def initDataArr (cap : Nat) : DataArrSt :=
  { byteData := List.replicate cap (Char.ofNat 0)
    byteDataLen := cap
    dataOfs := 0
    strOffsets := [] }

/-- Offsets recorded by successive appends: the running start offset of
each word, beginning at accumulator `a`. -/
def prefixSums : List Nat → Nat → List Nat
  | [], _ => []
  | l :: ls, a => a :: prefixSums ls (a + l)

/-- Field lengths derived from an offset array and a total buffer length:
each field runs to the next offset, the last to the end of the buffer. -/
def fieldLengths (offsets : List Nat) (bufLen : Nat) : List Nat :=
  match offsets with
  | [] => []
  | [o] => [bufLen - o]
  | o :: o2 :: rest => (o2 - o) :: fieldLengths (o2 :: rest) bufLen

/-- Well-formedness of the byte store: the list really has `byteDataLen`
bytes and the written prefix fits. -/
def DataWF (st : DataArrSt) : Prop :=
  st.byteData.length = st.byteDataLen ∧ st.dataOfs ≤ st.byteDataLen

/-- Full invariant tying a store to the sequence `ws` of words appended
so far. -/
def DataInv (ws : List (List Char)) (st : DataArrSt) : Prop :=
  st.byteData.length = st.byteDataLen ∧
  st.dataOfs = (ws.map List.length).sum ∧
  st.dataOfs ≤ st.byteDataLen ∧
  st.byteData.take st.dataOfs = ws.flatten ∧
  st.strOffsets = prefixSums (ws.map List.length) 0

theorem dataInv_init (cap : Nat) : DataInv [] (initDataArr cap) := by
  simp [DataInv, initDataArr, prefixSums]

theorem prefixSums_append_single (ls : List Nat) (l : Nat) (a : Nat) :
    prefixSums (ls ++ [l]) a = prefixSums ls a ++ [a + ls.sum] := by
  induction ls generalizing a with
  | nil => simp [prefixSums]
  | cons x xs ih => simp [prefixSums, ih, Nat.add_assoc]

theorem write_region_take (bd w : List Char) (D : Nat) (h : D + w.length ≤ bd.length) :
    (bd.take D ++ w ++ bd.drop (D + w.length)).take (D + w.length) = bd.take D ++ w := by
  have hD : D ≤ bd.length := le_trans (Nat.le_add_right _ _) h
  have hx : (bd.take D).length = D := List.length_take_of_le hD
  rw [List.append_assoc]
  have hrw : D + w.length = (bd.take D).length + w.length := by rw [hx]
  rw [hrw, List.take_append]
  congr 1
  exact List.take_left w _

theorem write_region_length (bd w : List Char) (D : Nat) (h : D + w.length ≤ bd.length) :
    (bd.take D ++ w ++ bd.drop (D + w.length)).length = bd.length := by
  have hD : D ≤ bd.length := le_trans (Nat.le_add_right _ _) h
  have hx : (bd.take D).length = D := List.length_take_of_le hD
  simp only [List.length_append, hx, List.length_drop]
  omega

theorem take_of_take_append (bd rest : List Char) (D : Nat) (h : D ≤ bd.length) :
    (bd.take D ++ rest).take D = bd.take D := by
  rw [List.take_append_of_le_length (by rw [List.length_take_of_le h])]
  simp [List.take_take]

theorem copy_into_data_array_step (ws : List (List Char)) (st : DataArrSt)
    (h : DataInv ws st) (w : List Char) :
    DataInv (ws ++ [w]) (copy_into_data_array st w) := by
  obtain ⟨hlen, hofs, hle, htake, hoffs⟩ := h
  unfold copy_into_data_array
  dsimp only
  by_cases hgrow : st.dataOfs + w.length > st.byteDataLen
  · -- growth path
    rw [if_pos hgrow]
    set N := if st.byteDataLen * 2 < st.dataOfs + w.length then st.dataOfs + w.length
      else st.byteDataLen * 2 with hN
    have hNbig : st.dataOfs + w.length ≤ N := by rw [hN]; split <;> omega
    set bd1 := st.byteData.take st.dataOfs ++
      List.replicate (N - st.dataOfs) (Char.ofNat 0) with hbd1
    have hb1len : bd1.length = N := by
      rw [hbd1]
      simp only [List.length_append, List.length_replicate,
        List.length_take_of_le (hlen ▸ hle)]
      omega
    have hfit : st.dataOfs + w.length ≤ bd1.length := hb1len ▸ hNbig
    have hb1take : bd1.take st.dataOfs = ws.flatten := by
      rw [hbd1, take_of_take_append _ _ _ (hlen ▸ hle), htake]
    dsimp only
    refine ⟨?_, ?_, ?_, ?_, ?_⟩
    · exact (write_region_length bd1 w st.dataOfs hfit).trans hb1len
    · simp [hofs]
    · simpa using hNbig
    · rw [write_region_take bd1 w st.dataOfs hfit, hb1take]
      simp
    · simp only [List.map_append, List.map_cons, List.map_nil]
      rw [hoffs, prefixSums_append_single]
      simp [hofs]
  · -- data fits in the current buffer
    rw [if_neg hgrow]
    have hfit : st.dataOfs + w.length ≤ st.byteData.length := by
      rw [hlen]; omega
    refine ⟨?_, ?_, ?_, ?_, ?_⟩
    · exact (write_region_length st.byteData w st.dataOfs hfit).trans hlen
    · simp [hofs]
    · show st.dataOfs + w.length ≤ st.byteDataLen
      omega
    · rw [write_region_take st.byteData w st.dataOfs hfit, htake]
      simp
    · simp only [List.map_append, List.map_cons, List.map_nil]
      rw [hoffs, prefixSums_append_single]
      simp [hofs]

theorem dataInv_foldl (ws : List (List Char)) :
    ∀ (ws0 : List (List Char)) (st : DataArrSt), DataInv ws0 st →
      DataInv (ws0 ++ ws) (ws.foldl copy_into_data_array st) := by
  induction ws with
  | nil => intro ws0 st h; simpa using h
  | cons w rest ih =>
      intro ws0 st h
      simp only [List.foldl_cons]
      have := ih (ws0 ++ [w]) (copy_into_data_array st w)
        (copy_into_data_array_step ws0 st h w)
      simpa [List.append_assoc] using this

theorem dataInv_run (cap : Nat) (ws : List (List Char)) :
    DataInv ws (ws.foldl copy_into_data_array (initDataArr cap)) := by
  simpa using dataInv_foldl ws [] (initDataArr cap) (dataInv_init cap)

/-- C2: for every sequence of appends to the growable byte store, an
overflowing append reallocates to `max(capacity * 2, currentLength +
newDataLength)` keeping the previously written prefix intact, and after
any number of appends the first `dataOfs` bytes of the buffer are the
byte-for-byte concatenation of all appended strings. -/
theorem c2_growable_store_no_loss :
    (∀ (st : DataArrSt) (w : List Char), DataWF st →
      st.dataOfs + w.length > st.byteDataLen →
      (copy_into_data_array st w).byteDataLen =
        max (st.byteDataLen * 2) (st.dataOfs + w.length) ∧
      (copy_into_data_array st w).byteData.take st.dataOfs =
        st.byteData.take st.dataOfs) ∧
    (∀ (cap : Nat) (ws : List (List Char)),
      (ws.foldl copy_into_data_array (initDataArr cap)).dataOfs =
        (ws.map List.length).sum ∧
      (ws.foldl copy_into_data_array (initDataArr cap)).byteData.take
        (ws.foldl copy_into_data_array (initDataArr cap)).dataOfs = ws.flatten) := by
  constructor
  · intro st w hwf hgrow
    obtain ⟨hlen, hle⟩ := hwf
    unfold copy_into_data_array
    dsimp only
    rw [if_pos hgrow]
    set N := if st.byteDataLen * 2 < st.dataOfs + w.length then st.dataOfs + w.length
      else st.byteDataLen * 2 with hN
    have hNmax : N = max (st.byteDataLen * 2) (st.dataOfs + w.length) := by
      rw [hN]; rw [Nat.max_def]; split <;> split <;> omega
    have hNbig : st.dataOfs + w.length ≤ N := by rw [hNmax]; omega
    set bd1 := st.byteData.take st.dataOfs ++
      List.replicate (N - st.dataOfs) (Char.ofNat 0) with hbd1
    have hb1take : bd1.take st.dataOfs = st.byteData.take st.dataOfs := by
      rw [hbd1, take_of_take_append _ _ _ (hlen ▸ hle)]
    constructor
    · exact hNmax
    · show (bd1.take st.dataOfs ++ w ++ bd1.drop (st.dataOfs + w.length)).take st.dataOfs
        = st.byteData.take st.dataOfs
      rw [List.append_assoc, take_of_take_append, hb1take]
      rw [hbd1]
      simp only [List.length_append, List.length_replicate,
        List.length_take_of_le (hlen ▸ hle)]
      omega
  · intro cap ws
    obtain ⟨-, hofs, -, htake, -⟩ := dataInv_run cap ws
    exact ⟨hofs, htake⟩

/-- Witness for C2 at a concrete overflowing append. -/
theorem c2_growable_store_no_loss_witness :
    (copy_into_data_array ⟨['a', 'b'], 2, 2, [0]⟩ ['c', 'd']).byteDataLen =
      max (2 * 2) (2 + 2) ∧
    (copy_into_data_array ⟨['a', 'b'], 2, 2, [0]⟩ ['c', 'd']).byteData.take 2 =
      (['a', 'b'] : List Char).take 2 :=
  c2_growable_store_no_loss.1 ⟨['a', 'b'], 2, 2, [0]⟩ ['c', 'd']
    ⟨rfl, Nat.le_refl 2⟩ (by decide)

/-- The outcome of the JVMTI lookups that `getMethodNamesForJMethodIds`
performs for one `jmethodID`.  `declaringClassFail` covers
`GetMethodDeclaringClass` returning an error, a NULL class, or the
`*(int*)declaringClass == 0` bug workaround; `classSignatureFail` is
`GetClassSignature` failing; `methodNameFail` is `GetMethodName` failing.
In the `ok` case `nativeRes = none` models `IsMethodNative` returning an
error, in which case the C code leaves `native` at its initial
`JNI_FALSE`. -/
inductive MethodResolution where
  | declaringClassFail
  | classSignatureFail
  | methodNameFail
  | ok (className methodName methodSig : List Char) (nativeRes : Option Bool)
deriving DecidableEq, Repr

/-- Embedding of `copy_dummy_names_into_data_array()` from Stacks.c. -/
def copy_dummy_names_into_data_array (st : DataArrSt) : DataArrSt :=
  copy_into_data_array (copy_into_data_array (copy_into_data_array
    (copy_into_data_array st "<unknown class>".toList)
    "<unknown method>".toList) "()V".toList) "0".toList

/-- The class-name demangling performed inline in
`getMethodNamesForJMethodIds`: if `className[0] == 'L'` and
`className[len-1] == ';'` the last character is overwritten with NUL and
the copy starts at `className+1`, i.e. the first and last characters are
stripped; otherwise the name is copied verbatim. -/
def demangled_class_name (className : List Char) : List Char :=
  if className.head? = some 'L' ∧ className.getLast? = some ';' then
    className.tail.dropLast
  else
    className

/-- One iteration of the `for (i = 0; i < nMethods; i++)` loop of
`getMethodNamesForJMethodIds`: any of the first three lookup failures
appends the dummy record and continues with the next method; on success
the four fields are appended, with the native flag defaulting to `0`
when `IsMethodNative` failed. -/
def process_method (st : DataArrSt) (r : MethodResolution) : DataArrSt :=
  match r with
  | .declaringClassFail => copy_dummy_names_into_data_array st
  | .classSignatureFail => copy_dummy_names_into_data_array st
  | .methodNameFail => copy_dummy_names_into_data_array st
  | .ok className methodName methodSig nativeRes =>
      let native := nativeRes.getD false
      copy_into_data_array (copy_into_data_array (copy_into_data_array
        (copy_into_data_array st (demangled_class_name className))
        methodName) methodSig)
        (if native then "1".toList else "0".toList)

/-- The `(byteBuffer, offsetArray)` pair returned by
`getMethodNamesForJMethodIds`: the `NewByteArray(dataOfs)` contents and
the `nMethods * PACKEDARR_ITEMS` recorded offsets. -/
structure MetadataBlob where
  byteBuffer : List Char
  offsets : List Nat
deriving DecidableEq, Repr

/-- Embedding of `Java_..._Stacks_getMethodNamesForJMethodIds`: the store
is initialised with capacity `nMethods * PACKEDARR_ITEMS * 10`, every
method is processed in order, and the written prefix plus the offset
array are returned.  The JVMTI lookup results for each handle are the
oracle input `resolutions`. -/
def getMethodNamesForJMethodIds (resolutions : List MethodResolution) : MetadataBlob :=
  let st := resolutions.foldl process_method
    (initDataArr (resolutions.length * PACKEDARR_ITEMS * 10))
  ⟨st.byteData.take st.dataOfs, st.strOffsets⟩

/-- The four words one loop iteration appends for resolution `r`. -/
def record_words (r : MethodResolution) : List (List Char) :=
  match r with
  | .declaringClassFail | .classSignatureFail | .methodNameFail =>
      ["<unknown class>".toList, "<unknown method>".toList, "()V".toList, "0".toList]
  | .ok className methodName methodSig nativeRes =>
      [demangled_class_name className, methodName, methodSig,
        if nativeRes.getD false then "1".toList else "0".toList]

theorem record_words_length (r : MethodResolution) : (record_words r).length = 4 := by
  cases r <;> rfl

theorem process_method_eq_foldl (st : DataArrSt) (r : MethodResolution) :
    process_method st r = (record_words r).foldl copy_into_data_array st := by
  cases r <;> rfl

/-- The flat list of all words appended for a batch. -/
def batch_words (resolutions : List MethodResolution) : List (List Char) :=
  (resolutions.map record_words).flatten

theorem foldl_process_method (resolutions : List MethodResolution) (st : DataArrSt) :
    resolutions.foldl process_method st =
      (batch_words resolutions).foldl copy_into_data_array st := by
  rw [batch_words, List.foldl_flatten]
  induction resolutions generalizing st with
  | nil => rfl
  | cons r rest ih =>
      simp only [List.foldl_cons, List.map_cons, process_method_eq_foldl]
      exact ih _

theorem batch_words_length (resolutions : List MethodResolution) :
    (batch_words resolutions).length = 4 * resolutions.length := by
  induction resolutions with
  | nil => rfl
  | cons r rest ih =>
      simp [batch_words, List.length_append, record_words_length] at *
      omega

theorem prefixSums_length (ls : List Nat) (a : Nat) :
    (prefixSums ls a).length = ls.length := by
  induction ls generalizing a with
  | nil => rfl
  | cons l rest ih => simp [prefixSums, ih]

theorem prefixSums_chain_le (ls : List Nat) (a : Nat) :
    List.Chain' (· ≤ ·) (prefixSums ls a) := by
  induction ls generalizing a with
  | nil => simp [prefixSums]
  | cons l rest ih =>
      cases rest with
      | nil => simp [prefixSums]
      | cons l2 rest2 =>
          refine List.Chain'.cons ?_ (ih (a + l))
          omega

theorem prefixSums_le_total (ls : List Nat) (a : Nat) :
    ∀ o ∈ prefixSums ls a, o ≤ a + ls.sum := by
  induction ls generalizing a with
  | nil => simp [prefixSums]
  | cons l rest ih =>
      intro o ho
      simp only [prefixSums, List.mem_cons] at ho
      rcases ho with rfl | ho
      · simp
      · have := ih (a + l) o ho
        simp only [List.sum_cons]
        omega

theorem fieldLengths_prefixSums (ls : List Nat) (a bufLen : Nat)
    (h : bufLen = a + ls.sum) :
    fieldLengths (prefixSums ls a) bufLen = ls := by
  induction ls generalizing a with
  | nil => simp [prefixSums, fieldLengths]
  | cons l rest ih =>
      cases rest with
      | nil =>
          simp only [prefixSums, fieldLengths, List.sum_cons, List.sum_nil] at *
          have hl : bufLen - a = l := by omega
          rw [hl]
      | cons l2 rest2 =>
          simp only [prefixSums, fieldLengths]
          have h1 : a + l - a = l := by omega
          have h2 := ih (a + l) (by simp at h ⊢; omega)
          simp only [prefixSums] at h2
          rw [h1, h2]

/-- C3: for every batch, the offset array has exactly `4 * N` entries,
is non-decreasing, every offset lies within the returned buffer (so all
derived field lengths are non-negative), and the derived field lengths
sum to the returned buffer length. -/
theorem c3_offsets_well_formed (resolutions : List MethodResolution) :
    (getMethodNamesForJMethodIds resolutions).offsets.length = 4 * resolutions.length ∧
    List.Chain' (· ≤ ·) (getMethodNamesForJMethodIds resolutions).offsets ∧
    (∀ o ∈ (getMethodNamesForJMethodIds resolutions).offsets,
      o ≤ (getMethodNamesForJMethodIds resolutions).byteBuffer.length) ∧
    (fieldLengths (getMethodNamesForJMethodIds resolutions).offsets
        (getMethodNamesForJMethodIds resolutions).byteBuffer.length).sum =
      (getMethodNamesForJMethodIds resolutions).byteBuffer.length := by
  unfold getMethodNamesForJMethodIds
  dsimp only
  rw [foldl_process_method]
  set stF := (batch_words resolutions).foldl copy_into_data_array
    (initDataArr (resolutions.length * PACKEDARR_ITEMS * 10)) with hstF
  obtain ⟨hlen, hofs, hle, htake, hoffs⟩ :=
    dataInv_run (resolutions.length * PACKEDARR_ITEMS * 10) (batch_words resolutions)
  rw [← hstF] at hlen hofs hle htake hoffs
  have hbuflen : (stF.byteData.take stF.dataOfs).length =
      ((batch_words resolutions).map List.length).sum := by
    rw [htake, List.length_flatten]
  refine ⟨?_, ?_, ?_, ?_⟩
  · rw [hoffs, prefixSums_length, List.length_map, batch_words_length]
  · rw [hoffs]; exact prefixSums_chain_le _ 0
  · intro o ho
    rw [hbuflen]
    rw [hoffs] at ho
    simpa using prefixSums_le_total _ 0 o ho
  · rw [hbuflen, hoffs, fieldLengths_prefixSums _ 0 _ (by simp)]

/-- Decoding a single field out of a packed blob: the bytes from this
field's offset up to the next offset (or the end of the buffer for the
very last field), exactly as the Java-side consumer indexes the result. -/
def fieldAt (blob : MetadataBlob) (k : Nat) : List Char :=
  let start := blob.offsets.getD k 0
  let stop := if k + 1 < blob.offsets.length then blob.offsets.getD (k + 1) 0
    else blob.byteBuffer.length
  (blob.byteBuffer.drop start).take (stop - start)

/-- The four decoded fields of record `i` in a packed blob. -/
def recordAt (blob : MetadataBlob) (i : Nat) : List (List Char) :=
  [fieldAt blob (4 * i), fieldAt blob (4 * i + 1),
   fieldAt blob (4 * i + 2), fieldAt blob (4 * i + 3)]

theorem prefixSums_getD (ls : List Nat) (a k : Nat) (h : k < ls.length) :
    (prefixSums ls a).getD k 0 = a + ((ls.take k).map id).sum := by
  induction ls generalizing a k with
  | nil => simp at h
  | cons l rest ih =>
      cases k with
      | zero => simp [prefixSums]
      | succ k =>
          simp only [prefixSums, List.getD_cons_succ, List.take_succ_cons,
            List.map_cons, List.sum_cons, id]
          rw [ih (a + l) k (by simpa using h)]
          omega

theorem flatten_drop_sum (ws : List (List Char)) (k : Nat) :
    ws.flatten.drop (((ws.take k).map List.length).sum) = (ws.drop k).flatten := by
  induction ws generalizing k with
  | nil => simp
  | cons w rest ih =>
      cases k with
      | zero => simp
      | succ k =>
          simp only [List.take_succ_cons, List.map_cons, List.sum_cons,
            List.flatten_cons, List.drop_succ_cons]
          rw [← ih k]
          exact List.drop_append _

theorem take_succ_getElem (ls : List Nat) (k : Nat) (h : k < ls.length) :
    ls.take (k + 1) = ls.take k ++ [ls.get ⟨k, h⟩] := by
  rw [List.take_succ]
  simp [List.getElem?_eq_getElem h]

theorem sum_take_succ (ls : List Nat) (k : Nat) (h : k < ls.length) :
    (ls.take (k + 1)).sum = (ls.take k).sum + ls.get ⟨k, h⟩ := by
  rw [take_succ_getElem ls k h, List.sum_append, List.sum_cons, List.sum_nil,
    List.get_eq_getElem]
  omega

theorem sum_drop_single (ls : List Nat) (k : Nat) (h : k + 1 = ls.length) :
    (ls.drop k).sum = ls.get ⟨k, by omega⟩ := by
  rw [List.drop_eq_getElem_cons (by omega : k < ls.length)]
  have : ls.drop (k + 1) = [] := by
    rw [h]; exact List.drop_length ls
  rw [this]
  simp

/-- Decoding field `k` out of a blob made of flattened words recovers
word `k` exactly. -/
theorem fieldAt_flatten (ws : List (List Char)) (k : Nat) (hk : k < ws.length) :
    fieldAt ⟨ws.flatten, prefixSums (ws.map List.length) 0⟩ k = ws.get ⟨k, hk⟩ := by
  unfold fieldAt
  dsimp only
  have hlensLen : (ws.map List.length).length = ws.length := List.length_map _ _
  have hklens : k < (ws.map List.length).length := by omega
  have hgetlens : (ws.map List.length).get ⟨k, hklens⟩ = (ws.get ⟨k, hk⟩).length := by
    simp
  have hstart : (prefixSums (ws.map List.length) 0).getD k 0 =
      ((ws.map List.length).take k).sum := by
    rw [prefixSums_getD _ _ _ hklens]
    simp
  have hdrop : ws.flatten.drop (((ws.map List.length).take k).sum) =
      ws.get ⟨k, hk⟩ ++ (ws.drop (k + 1)).flatten := by
    rw [← List.map_take, flatten_drop_sum ws k,
      List.drop_eq_getElem_cons hk, List.flatten_cons, List.get_eq_getElem]
  have hcond : ((k + 1 < (prefixSums (ws.map List.length) 0).length) ↔
      (k + 1 < ws.length)) := by
    rw [prefixSums_length, hlensLen]
  by_cases hlast : k + 1 < ws.length
  · rw [if_pos (hcond.mpr hlast)]
    have hstop : (prefixSums (ws.map List.length) 0).getD (k + 1) 0 =
        ((ws.map List.length).take k).sum + (ws.get ⟨k, hk⟩).length := by
      rw [prefixSums_getD _ _ _ (by omega), ← hgetlens]
      simp [sum_take_succ (ws.map List.length) k hklens]
    rw [hstart, hstop, hdrop]
    have : ((ws.map List.length).take k).sum + (ws.get ⟨k, hk⟩).length -
        ((ws.map List.length).take k).sum = (ws.get ⟨k, hk⟩).length := by omega
    rw [this]
    exact List.take_left _ _
  · rw [if_neg (fun hc => hlast (hcond.mp hc))]
    have hk1 : k + 1 = ws.length := by omega
    have hstop : ws.flatten.length =
        ((ws.map List.length).take k).sum + (ws.get ⟨k, hk⟩).length := by
      rw [List.length_flatten, ← List.sum_take_add_sum_drop (ws.map List.length) k]
      congr 1
      rw [sum_drop_single (ws.map List.length) k (by omega), hgetlens]
    rw [hstart, hstop, hdrop]
    have : ((ws.map List.length).take k).sum + (ws.get ⟨k, hk⟩).length -
        ((ws.map List.length).take k).sum = (ws.get ⟨k, hk⟩).length := by omega
    rw [this]
    exact List.take_left _ _

theorem getMethodNames_blob_eq (rs : List MethodResolution) :
    getMethodNamesForJMethodIds rs =
      ⟨(batch_words rs).flatten,
        prefixSums ((batch_words rs).map List.length) 0⟩ := by
  unfold getMethodNamesForJMethodIds
  dsimp only
  rw [foldl_process_method]
  obtain ⟨hlen, hofs, hle, htake, hoffs⟩ :=
    dataInv_run (rs.length * PACKEDARR_ITEMS * 10) (batch_words rs)
  rw [htake, hoffs]

theorem getD_eq_get_of_lt {α : Type} (l : List α) (d : α) (n : Nat) (h : n < l.length) :
    l.getD n d = l.get ⟨n, h⟩ := by
  simp [List.getD_eq_getElem?_getD, List.getElem?_eq_getElem h]

theorem batch_words_get (rs : List MethodResolution) (i j : Nat) (hi : i < rs.length)
    (hj : j < 4) :
    (batch_words rs).getD (4 * i + j) [] = (record_words (rs.get ⟨i, hi⟩)).getD j [] := by
  induction rs generalizing i with
  | nil => simp at hi
  | cons r rest ih =>
      have hsplit : batch_words (r :: rest) = record_words r ++ batch_words rest := by
        simp [batch_words]
      cases i with
      | zero =>
          rw [hsplit]
          have hjlen : j < (record_words r).length := by
            rw [record_words_length]; omega
          rw [show (4 * 0 + j) = j by omega, List.getD_append _ _ _ _ hjlen]
          rfl
      | succ i =>
          rw [hsplit]
          have h4 : 4 * (i + 1) + j = (record_words r).length + (4 * i + j) := by
            rw [record_words_length]; omega
          rw [h4, List.getD_append_right _ _ _ _ (Nat.le_add_right _ _)]
          rw [Nat.add_sub_cancel_left]
          have := ih i (by simpa using hi)
          rw [this]
          congr 1

theorem record_words_eta (r : MethodResolution) :
    record_words r = [(record_words r).getD 0 [], (record_words r).getD 1 [],
      (record_words r).getD 2 [], (record_words r).getD 3 []] := by
  cases r <;> rfl

theorem recordAt_getMethodNames (rs : List MethodResolution) (i : Nat)
    (hi : i < rs.length) :
    recordAt (getMethodNamesForJMethodIds rs) i = record_words (rs.get ⟨i, hi⟩) := by
  have hb := getMethodNames_blob_eq rs
  have hlen : (batch_words rs).length = 4 * rs.length := batch_words_length rs
  have hfa : ∀ j : Nat, j < 4 →
      fieldAt ⟨(batch_words rs).flatten,
        prefixSums ((batch_words rs).map List.length) 0⟩ (4 * i + j) =
      (record_words (rs.get ⟨i, hi⟩)).getD j [] := by
    intro j hj
    have hk : 4 * i + j < (batch_words rs).length := by rw [hlen]; omega
    rw [fieldAt_flatten _ _ hk, ← getD_eq_get_of_lt _ [] _ hk,
      batch_words_get rs i j hi hj]
  unfold recordAt
  rw [hb]
  have h0 := hfa 0 (by omega)
  have h1 := hfa 1 (by omega)
  have h2 := hfa 2 (by omega)
  have h3 := hfa 3 (by omega)
  simp only [Nat.add_zero] at h0
  rw [h0, h1, h2, h3, ← record_words_eta]

/-- The three lookup failures that abort a handle's resolution in the C
code (`GetMethodDeclaringClass`, `GetClassSignature`, `GetMethodName`). -/
def aborts_resolution (r : MethodResolution) : Prop :=
  r = .declaringClassFail ∨ r = .classSignatureFail ∨ r = .methodNameFail

/-- C1 (amended): if one of the first three lookup steps (declaring type,
type signature, method name/signature) fails for handle `i`, the handle's
remaining lookups are aborted and its record decodes to exactly the
placeholder `{"<unknown class>", "<unknown method>", "()V", "0"}`, all
other records being unaffected; a native-flag lookup failure alone does
not abort — the record keeps the real fields with the flag defaulting to
`"0"`. -/
theorem c1_placeholder_on_lookup_failure (rs : List MethodResolution) (i : Nat)
    (hi : i < rs.length) (hfail : aborts_resolution (rs.get ⟨i, hi⟩)) :
    recordAt (getMethodNamesForJMethodIds rs) i =
      ["<unknown class>".toList, "<unknown method>".toList, "()V".toList, "0".toList] ∧
    ∀ (j : Nat) (hj : j < rs.length),
      recordAt (getMethodNamesForJMethodIds rs) j = record_words (rs.get ⟨j, hj⟩) := by
  constructor
  · rw [recordAt_getMethodNames rs i hi]
    rcases hfail with h | h | h <;> rw [h] <;> rfl
  · intro j hj
    exact recordAt_getMethodNames rs j hj

/-- Witness for C1 (amended) at a concrete one-element batch whose
declaring-class lookup fails. -/
theorem c1_placeholder_on_lookup_failure_witness :
    recordAt (getMethodNamesForJMethodIds [MethodResolution.declaringClassFail]) 0 =
      ["<unknown class>".toList, "<unknown method>".toList, "()V".toList, "0".toList] :=
  (c1_placeholder_on_lookup_failure [MethodResolution.declaringClassFail] 0
    (by decide) (Or.inl rfl)).1

/-- Counterexample to C1 as stated: when only the fourth lookup step
(the native flag, `IsMethodNative`) fails, the C code does not substitute
the placeholder — it emits the real fields with the flag defaulting to
`"0"`. -/
theorem c1_native_flag_failure_not_placeholder :
    recordAt (getMethodNamesForJMethodIds
      [MethodResolution.ok "LA;".toList "m".toList "()V".toList none]) 0 =
      ["A".toList, "m".toList, "()V".toList, "0".toList] ∧
    recordAt (getMethodNamesForJMethodIds
      [MethodResolution.ok "LA;".toList "m".toList "()V".toList none]) 0 ≠
      ["<unknown class>".toList, "<unknown method>".toList, "()V".toList, "0".toList] := by
  constructor <;> decide

/-- C6: the demangling step rewrites exactly the names whose first
character is `L` and last character is `;` by stripping those two
characters, and passes every other form through verbatim, as on the
three concrete examples. -/
theorem c6_class_name_demangling :
    (∀ name : List Char, demangled_class_name ('L' :: (name ++ [';'])) = name) ∧
    (∀ s : List Char, ¬(s.head? = some 'L' ∧ s.getLast? = some ';') →
      demangled_class_name s = s) ∧
    demangled_class_name "Lcom/example/Foo;".toList = "com/example/Foo".toList ∧
    demangled_class_name "I".toList = "I".toList ∧
    demangled_class_name "[I".toList = "[I".toList := by
  refine ⟨?_, ?_, by decide, by decide, by decide⟩
  · intro name
    unfold demangled_class_name
    rw [if_pos]
    · simp [List.dropLast_concat]
    · constructor
      · rfl
      · rw [show ('L' :: (name ++ [';'])) = ('L' :: name) ++ [';'] by simp]
        exact List.getLast?_concat _
  · intro s hs
    unfold demangled_class_name
    rw [if_neg hs]

/-- Witness for C6's pass-through case at a concrete primitive name. -/
theorem c6_class_name_demangling_witness :
    demangled_class_name "J".toList = "J".toList :=
  c6_class_name_demangling.2.1 "J".toList (by decide)

/-- One `jvmtiFrameInfo` entry: the method handle (a pointer value,
modelled as a `Nat`) and the bytecode location. -/
structure FrameInfo where
  method : Nat
  location : Int
deriving DecidableEq, Repr, Inhabited

/-- Embedding of `convert_jmethodID_to_jlong`: the C cast
`(jlong) jmethod` reinterprets the pointer as a signed 64-bit value. -/
def convert_jmethodID_to_jlong (jmethod : Nat) : Int :=
  let r : Nat := jmethod % 2 ^ 64
  if r < 2 ^ 63 then (r : Int) else (r : Int) - 2 ^ 64

/-- Embedding of `convert_jlong_to_jmethodID`: the inverse cast. -/
def convert_jlong_to_jmethodID (method : Int) : Nat :=
  (method % 2 ^ 64).toNat

/-- The two static buffers of Stacks.c: `_stack_frames_buffer` and
`_stack_id_buffer`; `none` models a NULL pointer. -/
structure StacksState where
  stack_frames_buffer : Option (List FrameInfo)
  stack_id_buffer : Option (List Int)
deriving DecidableEq, Repr

/-- The static initialisers of Stacks.c: both buffers NULL. -/
def initialStacksState : StacksState :=
  { stack_frames_buffer := none, stack_id_buffer := none }

/-- Embedding of `clearNativeStackFrameBuffer`: frees whichever buffers
are present and sets both pointers to NULL. -/
def clearNativeStackFrameBuffer (_s : StacksState) : StacksState :=
  { stack_frames_buffer := none, stack_id_buffer := none }

/-- Embedding of `createNativeStackFrameBuffer(sizeInFrames)`: clears
any existing buffer first, then performs the two `calloc` calls.  The
two booleans are the allocation outcomes (`calloc` returning NULL on
failure is modelled by `false`); `calloc` zero-fills on success. -/
def createNativeStackFrameBuffer (s : StacksState) (sizeInFrames : Nat)
    (framesAllocOk idAllocOk : Bool) : StacksState :=
  let s1 := if s.stack_frames_buffer.isSome then clearNativeStackFrameBuffer s else s
  { s1 with
    stack_frames_buffer :=
      if framesAllocOk then some (List.replicate sizeInFrames default) else none,
    stack_id_buffer :=
      if idAllocOk then some (List.replicate sizeInFrames 0) else none }

/-- `SetLongArrayRegion`-style write: replace `src.length` elements of
`dst` starting at `start`. -/
def writeRegion {α : Type} (dst : List α) (start : Nat) (src : List α) : List α :=
  dst.take start ++ src ++ dst.drop (start + src.length)

/-- Embedding of `getCurrentStackFrameIds(jni_thread, depth, ret)`.
`threadStack` is the thread's actual stack, innermost first (the
`GetStackTrace` oracle, which fills the first
`count = min(depth, actual депth)` entries of `_stack_frames_buffer`);
`ret` is the caller-supplied output array.  Returns the count, the new
static state and the new contents of `ret`.  When
`_stack_frames_buffer == NULL` the function returns 0 immediately with
nothing written. -/
def getCurrentStackFrameIds (s : StacksState) (threadStack : List FrameInfo)
    (depth : Nat) (ret : List Int) : Nat × StacksState × List Int :=
  match s.stack_frames_buffer with
  | none => (0, s, ret)
  | some framesBuf =>
      let count := min depth threadStack.length
      let walked := threadStack.take count
      let framesBuf1 := writeRegion framesBuf 0 walked
      let ids := walked.map (fun f => convert_jmethodID_to_jlong f.method)
      let idBuf1 := writeRegion (s.stack_id_buffer.getD []) 0 ids
      let ret1 := writeRegion ret 0 ids
      (count,
       { stack_frames_buffer := some framesBuf1, stack_id_buffer := some idBuf1 },
       ret1)

/-- C7: a `getCurrentStackFrameIds` call with no frame buffer allocated
returns 0 and performs no writes — neither the static state nor the
caller-supplied output array changes — and this covers in particular
every call made right after `clearNativeStackFrameBuffer`. -/
theorem c7_no_buffer_returns_zero (s : StacksState) (threadStack : List FrameInfo)
    (depth : Nat) (ret : List Int) (h : s.stack_frames_buffer = none) :
    getCurrentStackFrameIds s threadStack depth ret = (0, s, ret) ∧
    ∀ s' : StacksState,
      getCurrentStackFrameIds (clearNativeStackFrameBuffer s') threadStack depth ret =
        (0, clearNativeStackFrameBuffer s', ret) := by
  constructor
  · unfold getCurrentStackFrameIds
    rw [h]
  · intro s'
    rfl

/-- Witness for C7 at the initial (never-created) state. -/
theorem c7_no_buffer_returns_zero_witness :
    getCurrentStackFrameIds initialStacksState [⟨3, 0⟩] 5 [7] =
      (0, initialStacksState, [7]) :=
  (c7_no_buffer_returns_zero initialStacksState [⟨3, 0⟩] 5 [7] rfl).1

/-- C8: with a frame buffer allocated, a live thread, and `depth` within
the buffer capacities, `getCurrentStackFrameIds` walks
`count = min(depth, stack depth)` frames from the innermost, converts
each walked frame's method handle to its 64-bit form, writes exactly
`count` identifiers in frame order into the first `count` slots of the
caller-supplied array (leaving the rest untouched), and returns `count`. -/
theorem c8_capture_stack_converts_and_writes (framesBuf : List FrameInfo)
    (idBuf : List Int) (threadStack : List FrameInfo) (depth : Nat) (ret : List Int)
    (hdepth : depth ≤ framesBuf.length) (hid : depth ≤ idBuf.length)
    (hret : min depth threadStack.length ≤ ret.length) :
    (getCurrentStackFrameIds ⟨some framesBuf, some idBuf⟩ threadStack depth ret).1 =
      min depth threadStack.length ∧
    (getCurrentStackFrameIds ⟨some framesBuf, some idBuf⟩ threadStack depth ret).2.2.take
        (min depth threadStack.length) =
      (threadStack.take (min depth threadStack.length)).map
        (fun f => convert_jmethodID_to_jlong f.method) ∧
    (getCurrentStackFrameIds ⟨some framesBuf, some idBuf⟩ threadStack depth ret).2.2.drop
        (min depth threadStack.length) =
      ret.drop (min depth threadStack.length) ∧
    (getCurrentStackFrameIds ⟨some framesBuf, some idBuf⟩ threadStack depth ret).2.2.length =
      ret.length := by
  unfold getCurrentStackFrameIds
  dsimp only
  set count := min depth threadStack.length with hcount
  set ids := (threadStack.take count).map (fun f => convert_jmethodID_to_jlong f.method)
    with hids
  have hidslen : ids.length = count := by
    rw [hids, List.length_map, List.length_take]
    omega
  have hwrite : writeRegion ret 0 ids = ids ++ ret.drop count := by
    unfold writeRegion
    rw [List.take_zero, List.nil_append, Nat.zero_add, hidslen]
  refine ⟨rfl, ?_, ?_, ?_⟩
  · show (writeRegion ret 0 ids).take count = ids
    rw [hwrite, ← hidslen, List.take_left]
  · show (writeRegion ret 0 ids).drop count = ret.drop count
    rw [hwrite, ← hidslen, List.drop_left]
  · show (writeRegion ret 0 ids).length = ret.length
    rw [hwrite, List.length_append, hidslen, List.length_drop]
    omega

/-- Witness for C8 on a concrete two-frame stack with depth 3. -/
theorem c8_capture_stack_converts_and_writes_witness :
    (getCurrentStackFrameIds
        ⟨some (List.replicate 4 default), some (List.replicate 4 0)⟩
        [⟨5, 0⟩, ⟨6, 1⟩] 3 [9, 9, 9]).1 = min 3 2 ∧
    (getCurrentStackFrameIds
        ⟨some (List.replicate 4 default), some (List.replicate 4 0)⟩
        [⟨5, 0⟩, ⟨6, 1⟩] 3 [9, 9, 9]).2.2.take (min 3 2) =
      (([⟨5, 0⟩, ⟨6, 1⟩] : List FrameInfo).take (min 3 2)).map
        (fun f => convert_jmethodID_to_jlong f.method) ∧
    (getCurrentStackFrameIds
        ⟨some (List.replicate 4 default), some (List.replicate 4 0)⟩
        [⟨5, 0⟩, ⟨6, 1⟩] 3 [9, 9, 9]).2.2.drop (min 3 2) =
      ([9, 9, 9] : List Int).drop (min 3 2) ∧
    (getCurrentStackFrameIds
        ⟨some (List.replicate 4 default), some (List.replicate 4 0)⟩
        [⟨5, 0⟩, ⟨6, 1⟩] 3 [9, 9, 9]).2.2.length = ([9, 9, 9] : List Int).length :=
  c8_capture_stack_converts_and_writes (List.replicate 4 default) (List.replicate 4 0)
    [⟨5, 0⟩, ⟨6, 1⟩] 3 [9, 9, 9] (by decide) (by decide) (by decide)

/-- A buffer-lifecycle call: `createNativeStackFrameBuffer` with its two
allocation outcomes, or `clearNativeStackFrameBuffer`. -/
inductive BufOp where
  | create (sizeInFrames : Nat) (framesAllocOk idAllocOk : Bool)
  | clear
deriving DecidableEq, Repr

def applyBufOp (s : StacksState) : BufOp → StacksState
  | .create n ok1 ok2 => createNativeStackFrameBuffer s n ok1 ok2
  | .clear => clearNativeStackFrameBuffer s

/-- An operation whose `calloc` calls all succeed. -/
def allocsSucceed : BufOp → Bool
  | .create _ ok1 ok2 => ok1 && ok2
  | .clear => true

/-- The two static buffer pointers are either both NULL or both
non-NULL. -/
def buffersPaired (s : StacksState) : Prop :=
  s.stack_frames_buffer.isSome = s.stack_id_buffer.isSome

/-- C10: after any sequence of create/clear calls whose allocations
succeed, the raw-frame pointer and the identifier pointer are paired
(both NULL or both non-NULL); and since `getCurrentStackFrameIds` checks
only the raw-frame pointer, the pairing extends the "no buffer, return
0" safeguard to the identifier buffer: in a paired state with no
identifier buffer, the call returns 0 and writes nothing. -/
theorem c10_buffer_pointers_paired (ops : List BufOp)
    (h : ∀ op ∈ ops, allocsSucceed op = true) :
    buffersPaired (ops.foldl applyBufOp initialStacksState) ∧
    (∀ (s : StacksState) (threadStack : List FrameInfo) (depth : Nat) (ret : List Int),
      buffersPaired s → s.stack_id_buffer = none →
      getCurrentStackFrameIds s threadStack depth ret = (0, s, ret)) := by
  constructor
  · have main : ∀ (ops1 : List BufOp) (s : StacksState),
        (∀ op ∈ ops1, allocsSucceed op = true) → buffersPaired s →
        buffersPaired (ops1.foldl applyBufOp s) := by
      intro ops1
      induction ops1 with
      | nil => intro s _ hs; exact hs
      | cons op rest ih =>
          intro s hops hs
          simp only [List.foldl_cons]
          apply ih
          · intro o ho
            exact hops o (List.mem_cons_of_mem _ ho)
          · have hop := hops op (List.mem_cons_self _ _)
            cases op with
            | clear =>
                simp [applyBufOp, clearNativeStackFrameBuffer, buffersPaired]
            | create n ok1 ok2 =>
                simp only [allocsSucceed, Bool.and_eq_true] at hop
                obtain ⟨h1, h2⟩ := hop
                simp [applyBufOp, createNativeStackFrameBuffer, h1, h2, buffersPaired]
    exact main ops initialStacksState h rfl
  · intro s threadStack depth ret hpair hid
    have hframes : s.stack_frames_buffer = none := by
      unfold buffersPaired at hpair
      rw [hid] at hpair
      cases hf : s.stack_frames_buffer with
      | none => rfl
      | some v => rw [hf] at hpair; simp at hpair
    unfold getCurrentStackFrameIds
    rw [hframes]

/-- Witness for C10 on a concrete create/clear/create sequence. -/
theorem c10_buffer_pointers_paired_witness :
    buffersPaired (List.foldl applyBufOp initialStacksState
      [BufOp.create 4 true true, BufOp.clear, BufOp.create 2 true true]) :=
  (c10_buffer_pointers_paired
    [BufOp.create 4 true true, BufOp.clear, BufOp.create 2 true true]
    (by decide)).1

/-- One `jvmtiStackInfo` record from `GetAllStackTraces`: the thread
handle (modelled as a `Nat`), the raw JVMTI state bits, and the frame
buffer (method handles, innermost first; `frame_count` is its length). -/
structure StackInfo where
  thread : Nat
  state : Int
  frame_buffer : List Nat
deriving DecidableEq, Repr, Inhabited

/-- `JVMTI_ERROR_NONE`. -/
def JVMTI_ERROR_NONE : Int := 0

/-- The three caller-supplied one-element holder arrays of
`getAllStackTraces` (`threads[0]`, `states[0]`, `frames[0]`); `none`
models a holder whose element 0 has not been stored to. -/
structure AllStacksHolders where
  threads : Option (List (Option Nat))
  states : Option (List Int)
  frames : Option (List (Option (List Int)))
deriving DecidableEq, Repr

/-- The per-thread loop of `getAllStackTraces`: iteration `ti` reads
`stack_info[ti]` and writes index `ti` of the thread array, the state
buffer (through the external `convert_JVMTI_thread_status_to_jfluid_status`
collaborator `conv`) and the method-id array-of-arrays.  The three
arrays start as `NewObjectArray(thread_count, NULL)`,
`calloc(thread_count)` and `NewObjectArray(thread_count, NULL)`. -/
def getAllStackTraces_loop (conv : Int → Int) (infos : List StackInfo) :
    List (Option Nat) × List Int × List (Option (List Int)) :=
  (List.range infos.length).foldl
    (fun acc ti =>
      (acc.1.set ti (some (infos.getD ti default).thread),
       acc.2.1.set ti (conv (infos.getD ti default).state),
       acc.2.2.set ti
         (some ((infos.getD ti default).frame_buffer.map convert_jmethodID_to_jlong))))
    (List.replicate infos.length none, List.replicate infos.length 0,
     List.replicate infos.length none)

/-- Embedding of `Java_..._Stacks_getAllStackTraces`: `err` and `infos`
are the result of the `GetAllStackTraces` oracle.  If `err` is not
`JVMTI_ERROR_NONE` the function returns at once leaving all three
holders untouched; otherwise the loop fills the three arrays and the
holders receive them. -/
def getAllStackTraces (conv : Int → Int) (err : Int) (infos : List StackInfo)
    (holders : AllStacksHolders) : AllStacksHolders :=
  if err ≠ JVMTI_ERROR_NONE then holders
  else
    let r := getAllStackTraces_loop conv infos
    { threads := some r.1, states := some r.2.1, frames := some r.2.2 }

theorem foldl_triple_set (g1 : List (Option Nat) → Nat → Option Nat)
    (g2 : List Int → Nat → Int) (g3 : List (Option (List Int)) → Nat → Option (List Int))
    (l : List Nat) (a : List (Option Nat)) (b : List Int)
    (c : List (Option (List Int))) :
    l.foldl (fun acc ti => (acc.1.set ti (g1 acc.1 ti), acc.2.1.set ti (g2 acc.2.1 ti),
        acc.2.2.set ti (g3 acc.2.2 ti))) (a, b, c) =
      (l.foldl (fun x ti => x.set ti (g1 x ti)) a,
       l.foldl (fun x ti => x.set ti (g2 x ti)) b,
       l.foldl (fun x ti => x.set ti (g3 x ti)) c) := by
  induction l generalizing a b c with
  | nil => rfl
  | cons t rest ih => simp only [List.foldl_cons, ih]

theorem foldl_set_range_length {α : Type} (v : Nat → α) (init : List α) (n : Nat) :
    ((List.range n).foldl (fun x ti => x.set ti (v ti)) init).length = init.length := by
  induction n with
  | zero => rfl
  | succ n ih =>
      rw [List.range_succ, List.foldl_append, List.foldl_cons, List.foldl_nil,
        List.length_set, ih]

theorem foldl_set_range_getD {α : Type} (v : Nat → α) (init : List α) (n j : Nat)
    (d : α) (hj : j < n) (hinit : j < init.length) :
    ((List.range n).foldl (fun x ti => x.set ti (v ti)) init).getD j d = v j := by
  induction n with
  | zero => omega
  | succ n ih =>
      rw [List.range_succ, List.foldl_append, List.foldl_cons, List.foldl_nil]
      by_cases hjn : j = n
      · subst hjn
        rw [getD_eq_get_of_lt _ _ _
          (by rw [List.length_set, foldl_set_range_length]; omega)]
        rw [List.get_eq_getElem, List.getElem_set_self]
      · rw [List.getD_eq_getElem?_getD, List.getElem?_set_ne (by omega),
          ← List.getD_eq_getElem?_getD]
        exact ih (by omega)

/-- C5: when `GetAllStackTraces` reports an error code, the function
returns immediately: no partial data, none of the three caller-supplied
holders is populated. -/
theorem c5_error_returns_empty (conv : Int → Int) (err : Int) (infos : List StackInfo)
    (holders : AllStacksHolders) (herr : err ≠ JVMTI_ERROR_NONE) :
    getAllStackTraces conv err infos holders = holders := by
  unfold getAllStackTraces
  rw [if_pos herr]

/-- Witness for C5 at a concrete error code. -/
theorem c5_error_returns_empty_witness :
    getAllStackTraces id 112 [⟨1, 2, [3]⟩] ⟨none, none, none⟩ =
      (⟨none, none, none⟩ : AllStacksHolders) :=
  c5_error_returns_empty id 112 [⟨1, 2, [3]⟩] ⟨none, none, none⟩ (by decide)

/-- C4: on a successful capture, all three output sequences have length
`thread_count`, and for every index `i` the thread handle, the translated
state and the identifier list stored at `i` all come from the same
stack-info record `infos[i]`. -/
theorem c4_outputs_index_aligned (conv : Int → Int) (err : Int)
    (infos : List StackInfo) (holders : AllStacksHolders)
    (herr : err = JVMTI_ERROR_NONE) (i : Nat) (hi : i < infos.length) :
    ∃ th st fr, getAllStackTraces conv err infos holders = ⟨some th, some st, some fr⟩ ∧
      th.length = infos.length ∧ st.length = infos.length ∧ fr.length = infos.length ∧
      th.getD i none = some (infos.get ⟨i, hi⟩).thread ∧
      st.getD i 0 = conv (infos.get ⟨i, hi⟩).state ∧
      fr.getD i none =
        some ((infos.get ⟨i, hi⟩).frame_buffer.map convert_jmethodID_to_jlong) := by
  subst herr
  unfold getAllStackTraces
  rw [if_neg (by simp)]
  dsimp only
  have hloop : getAllStackTraces_loop conv infos =
      ((List.range infos.length).foldl
        (fun x ti => x.set ti (some (infos.getD ti default).thread))
        (List.replicate infos.length none),
       (List.range infos.length).foldl
        (fun x ti => x.set ti (conv (infos.getD ti default).state))
        (List.replicate infos.length 0),
       (List.range infos.length).foldl
        (fun x ti => x.set ti
          (some ((infos.getD ti default).frame_buffer.map convert_jmethodID_to_jlong)))
        (List.replicate infos.length none)) := by
    unfold getAllStackTraces_loop
    exact foldl_triple_set
      (fun _ ti => some (infos.getD ti default).thread)
      (fun _ ti => conv (infos.getD ti default).state)
      (fun _ ti => some ((infos.getD ti default).frame_buffer.map
        convert_jmethodID_to_jlong))
      (List.range infos.length) _ _ _
  rw [hloop]
  have hgd : infos.getD i default = infos.get ⟨i, hi⟩ := getD_eq_get_of_lt _ _ _ hi
  refine ⟨_, _, _, rfl, ?_, ?_, ?_, ?_, ?_, ?_⟩
  · rw [foldl_set_range_length, List.length_replicate]
  · rw [foldl_set_range_length, List.length_replicate]
  · rw [foldl_set_range_length, List.length_replicate]
  · rw [foldl_set_range_getD _ _ _ _ _ hi (by rw [List.length_replicate]; omega), hgd]
  · rw [foldl_set_range_getD _ _ _ _ _ hi (by rw [List.length_replicate]; omega), hgd]
  · rw [foldl_set_range_getD _ _ _ _ _ hi (by rw [List.length_replicate]; omega), hgd]

/-- Witness for C4 on a concrete one-thread snapshot. -/
theorem c4_outputs_index_aligned_witness :
    ∃ th st fr, getAllStackTraces (fun x => x + 10) 0 [⟨7, 3, [1, 2]⟩]
        ⟨none, none, none⟩ = ⟨some th, some st, some fr⟩ ∧
      th.length = ([⟨7, 3, [1, 2]⟩] : List StackInfo).length ∧
      st.length = ([⟨7, 3, [1, 2]⟩] : List StackInfo).length ∧
      fr.length = ([⟨7, 3, [1, 2]⟩] : List StackInfo).length ∧
      th.getD 0 none = some (([⟨7, 3, [1, 2]⟩] : List StackInfo).get ⟨0, by decide⟩).thread ∧
      st.getD 0 0 = (fun x => x + 10)
        (([⟨7, 3, [1, 2]⟩] : List StackInfo).get ⟨0, by decide⟩).state ∧
      fr.getD 0 none = some ((([⟨7, 3, [1, 2]⟩] : List StackInfo).get
        ⟨0, by decide⟩).frame_buffer.map convert_jmethodID_to_jlong) :=
  c4_outputs_index_aligned (fun x => x + 10) 0 [⟨7, 3, [1, 2]⟩] ⟨none, none, none⟩
    rfl 0 (by decide)

/-- The observable side effects of a successful `getAllStackTraces` run,
in program order.  `writeThreadElem ti` / `writeStateBuf ti` /
`writeFramesElem ti` are the three per-thread stores of loop iteration
`ti`; `writeStatesRegion` is the bulk `SetIntArrayRegion` after the
loop; `releaseStackInfo` is the single `Deallocate(stack_info)` that
frees all runtime-owned snapshot memory; `freeStateBuffer` frees the
locally allocated state buffer. -/
inductive SnapEvent where
  | writeThreadElem (ti : Nat)
  | writeStateBuf (ti : Nat)
  | writeFramesElem (ti : Nat)
  | writeStatesRegion
  | releaseStackInfo
  | freeStateBuffer
deriving DecidableEq, Repr

/-- Events that populate one of the three output sequences. -/
def isPopulateEvent : SnapEvent → Bool
  | .writeThreadElem _ => true
  | .writeStateBuf _ => true
  | .writeFramesElem _ => true
  | .writeStatesRegion => true
  | .releaseStackInfo => false
  | .freeStateBuffer => false

/-- The event trace of `Java_..._Stacks_getAllStackTraces`, following
the source order: early return on error; otherwise the per-thread loop,
then the bulk states store, then the single `Deallocate`, then
`free(state_buffer)`. -/
def getAllStackTracesTrace (err : Int) (infos : List StackInfo) : List SnapEvent :=
  if err ≠ JVMTI_ERROR_NONE then []
  else
    ((List.range infos.length).flatMap
      (fun ti => [.writeThreadElem ti, .writeStateBuf ti, .writeFramesElem ti]))
      ++ [.writeStatesRegion, .releaseStackInfo, .freeStateBuffer]

/-- C9: in every successful run, the single bulk release of the
runtime-owned snapshot happens exactly once, and only after every
population event — all three per-thread stores of every iteration and
the bulk states store are strictly before it, and nothing after it
populates an output. -/
theorem c9_single_release_after_population (err : Int) (infos : List StackInfo)
    (herr : err = JVMTI_ERROR_NONE) :
    ∃ pre, getAllStackTracesTrace err infos =
        pre ++ [SnapEvent.releaseStackInfo, SnapEvent.freeStateBuffer] ∧
      (∀ e ∈ pre, isPopulateEvent e = true) ∧
      (getAllStackTracesTrace err infos).count SnapEvent.releaseStackInfo = 1 ∧
      isPopulateEvent SnapEvent.freeStateBuffer = false ∧
      ∀ ti, ti < infos.length →
        SnapEvent.writeThreadElem ti ∈ pre ∧ SnapEvent.writeStateBuf ti ∈ pre ∧
        SnapEvent.writeFramesElem ti ∈ pre := by
  subst herr
  unfold getAllStackTracesTrace
  rw [if_neg (by simp)]
  refine ⟨((List.range infos.length).flatMap
      (fun ti => [.writeThreadElem ti, .writeStateBuf ti, .writeFramesElem ti]))
      ++ [SnapEvent.writeStatesRegion], ?_, ?_, ?_, rfl, ?_⟩
  · simp [List.append_assoc]
  · intro e he
    rcases List.mem_append.mp he with hb | hw
    · rcases List.mem_flatMap.mp hb with ⟨ti, -, hti⟩
      simp only [List.mem_cons, List.not_mem_nil, or_false] at hti
      rcases hti with rfl | rfl | rfl <;> rfl
    · simp only [List.mem_cons, List.not_mem_nil, or_false] at hw
      subst hw
      rfl
  · rw [List.count_append]
    have hzero : ((List.range infos.length).flatMap
        (fun ti => [SnapEvent.writeThreadElem ti, SnapEvent.writeStateBuf ti,
          SnapEvent.writeFramesElem ti])).count SnapEvent.releaseStackInfo = 0 := by
      rw [List.count_eq_zero]
      intro hmem
      rcases List.mem_flatMap.mp hmem with ⟨ti, -, hti⟩
      simp at hti
    rw [hzero]
    rfl
  · intro ti hti
    refine ⟨?_, ?_, ?_⟩ <;>
      exact List.mem_append_left _ (List.mem_flatMap.mpr
        ⟨ti, List.mem_range.mpr hti, by simp⟩)

/-- Witness for C9 on the empty snapshot. -/
theorem c9_single_release_after_population_witness :
    ∃ pre, getAllStackTracesTrace 0 [] =
        pre ++ [SnapEvent.releaseStackInfo, SnapEvent.freeStateBuffer] ∧
      (∀ e ∈ pre, isPopulateEvent e = true) ∧
      (getAllStackTracesTrace 0 []).count SnapEvent.releaseStackInfo = 1 ∧
      isPopulateEvent SnapEvent.freeStateBuffer = false ∧
      ∀ ti, ti < ([] : List StackInfo).length →
        SnapEvent.writeThreadElem ti ∈ pre ∧ SnapEvent.writeStateBuf ti ∈ pre ∧
        SnapEvent.writeFramesElem ti ∈ pre :=
  c9_single_release_after_population 0 [] rfl
